import Mathlib

/-!
Verification of the krank text-normalization and corpus-materialization
pipeline.  The definitions below are a shallow embedding of
`src/krank/_corpus.py` (`_normalize_text`, `Corpus.authors`),
`src/krank/_registry.py` (`get_entry`), `src/krank/_schemas.py`
(the pandera schema declarations) and `scripts/build_aggregate.py`.
Strings are modelled as `List Char`; pandas tables as lists of rows.
-/

namespace Krank

/-- Characters that Python treats as whitespace, both for the regex class
used in `re.sub` with pattern backslash-s-plus and for `str.strip()`: the
ASCII whitespace characters together with the Unicode whitespace code
points. -/
def isPySpace (c : Char) : Bool :=
  c = ' ' || c = '\t' || c = '\n' || c = '\r' || c = '\u000B' || c = '\u000C' ||
  c = '\u001C' || c = '\u001D' || c = '\u001E' || c = '\u001F' ||
  c = '\u0085' || c = ' ' || c = ' ' ||
  c = ' ' || c = ' ' || c = ' ' || c = ' ' ||
  c = ' ' || c = ' ' || c = ' ' || c = ' ' ||
  c = ' ' || c = ' ' || c = ' ' ||
  c = ' ' || c = ' ' || c = ' ' || c = ' ' || c = '　'

/-- Modelled from the spec: the encoding-repair / quote-canonicalization step
(`ftfy.fix_text` with the module-level `_FTFY_CONFIG`, whose source is not in
this repository).  The spec behaviour relevant to the later pipeline stages
is quote canonicalization: typographic double quotation marks become a
straight double quote and typographic single quotation marks/apostrophes
become a straight single quote; text that is already repaired plain text is
returned unchanged. -/
def uncurlChar (c : Char) : Char :=
  if c = '“' || c = '”' then '"'
  else if c = '‘' || c = '’' then '\x27'
  else c

/-- Modelled from the spec: `ftfy.fix_text(text, _FTFY_CONFIG)` restricted to
the character-level behaviour the normalizer relies on (uncurl quotes,
identity on already-fixed text). -/
def ftfyFix (l : List Char) : List Char := l.map uncurlChar

/-- Step 2 of `_normalize_text`: replace the ellipsis character U+2026 with
three ASCII periods. -/
def replaceEllipsis : List Char → List Char
  | [] => []
  | c :: cs => (if c = '…' then ['.', '.', '.'] else [c]) ++ replaceEllipsis cs

/-- Step 3 of `_normalize_text`: every maximal run of whitespace collapses
to a single ASCII space (the regex substitution of a whitespace run by a
space). -/
def collapseWs : List Char → List Char
  | [] => []
  | [c] => if isPySpace c then [' '] else [c]
  | a :: b :: rest =>
    if isPySpace a && isPySpace b then collapseWs (b :: rest)
    else (if isPySpace a then ' ' else a) :: collapseWs (b :: rest)

/-- Leading-whitespace removal (the left half of Python `str.strip()`). -/
def stripStart (l : List Char) : List Char := l.dropWhile isPySpace

/-- Trailing-whitespace removal (the right half of Python `str.strip()`). -/
def stripEnd (l : List Char) : List Char := (l.reverse.dropWhile isPySpace).reverse

/-- Python `str.strip()`: remove leading and trailing whitespace. -/
def stripWs (l : List Char) : List Char := stripEnd (stripStart l)

/-- A straight quote character, the character class of the outer-quote
regex. -/
def isQuoteChar (c : Char) : Bool := c = '"' || c = '\x27'

/-- The match condition of the outer-quote regex of `_normalize_text`
(a quote class, a dot-plus group, a backreference, all anchored): the string
starts and ends with the same straight quote character with at least one
character in between (total length at least 3).  Python dot does not match a
newline, so a string containing a newline is not matched; in the pipeline
this function is only applied after whitespace collapse, which leaves no
newline anywhere in the string. -/
def isQuoteWrapped (l : List Char) : Bool :=
  match l.head?, l.getLast? with
  | some a, some b =>
    isQuoteChar a && a == b && decide (3 ≤ l.length) && l.all (fun c => c != '\n')
  | _, _ => false

/-- Step 5 of `_normalize_text`: when the whole string is wrapped in one pair
of matching straight quotes, remove exactly that outer pair (the regex
substitution keeping only the inner group). -/
def stripOuterQuotes (l : List Char) : List Char :=
  if isQuoteWrapped l then l.tail.dropLast else l

/-- The pipeline stages of `_normalize_text` that run before the outer-quote
strip: ftfy fixing, ellipsis replacement, whitespace collapse, trim. -/
def preQuote (s : List Char) : List Char :=
  stripWs (collapseWs (replaceEllipsis (ftfyFix s)))

/-- The per-row normalization pipeline of `_normalize_text`, applied to each
value of the report column: ftfy fixing, ellipsis replacement, whitespace
collapse, trim, outer-quote strip, re-trim. -/
def normalizeRow (s : List Char) : List Char :=
  stripWs (stripOuterQuotes (preQuote s))

/-- Whether a row still contains the Unicode replacement character U+FFFD
(the per-row substring test of the corruption check). -/
def containsRep (l : List Char) : Bool := decide ('�' ∈ l)

/-- The warning message of `_normalize_text`, parametrized by the number of
affected rows. -/
def replacementWarning (k : Nat) : String :=
  "Found " ++ toString k ++ " dream report(s) containing replacement " ++
  "characters (�) after normalization. These indicate unrecoverable " ++
  "text corruption in the source data."

/-- The `ValueError` message of `_normalize_text`, parametrized by the number
of empty rows. -/
def emptyReportError (k : Nat) : String :=
  "Found " ++ toString k ++ " empty dream report(s) after normalization. " ++
  "Dream reports cannot be empty strings."

/-- Number of rows of the normalized column that still contain U+FFFD
(the sum of the replacement-character mask in the source). -/
def replacementCountAfter (rows : List (List Char)) : Nat :=
  ((rows.map normalizeRow).filter containsRep).length

/-- Number of rows of the normalized column that are the empty string
(the sum of the empty-string comparison in the source). -/
def emptyCountAfter (rows : List (List Char)) : Nat :=
  ((rows.map normalizeRow).filter (fun r => r.isEmpty)).length

/-- The batch part of `_normalize_text`: normalize every row of the report
column, emit the replacement-character warning when some row still contains
U+FFFD, then raise `ValueError` when some row normalized to the empty string,
otherwise return all rows.  The first component collects the warnings emitted
(the warning fires before the emptiness check, so it is emitted even on the
error path, exactly as in the source). -/
def normalizeColumn (rows : List (List Char)) :
    List String × Except String (List (List Char)) :=
  let out := rows.map normalizeRow
  let warns :=
    if 0 < replacementCountAfter rows then [replacementWarning (replacementCountAfter rows)]
    else []
  (warns,
    if 0 < emptyCountAfter rows then Except.error (emptyReportError (emptyCountAfter rows))
    else Except.ok out)

/-! ### Whitespace bookkeeping lemmas -/

/-- Adjacent-pair invariant: `p` holds of every pair of adjacent characters. -/
def pairsOk (p : Char → Char → Bool) : List Char → Bool
  | [] => true
  | [_] => true
  | a :: b :: rest => p a b && pairsOk p (b :: rest)

/-- No two adjacent whitespace characters. -/
def noWsPair (a b : Char) : Bool := !(isPySpace a && isPySpace b)

theorem pairsOk_tail {p} : ∀ {l : List Char}, pairsOk p l = true → pairsOk p l.tail = true
  | [], _ => rfl
  | [_], _ => rfl
  | _ :: _ :: _, h => ((Bool.and_eq_true _ _).mp h).2

theorem pairsOk_append_left {p} {m : List Char} :
    ∀ {l : List Char}, pairsOk p (l ++ m) = true → pairsOk p l = true
  | [], _ => rfl
  | [_], _ => rfl
  | _ :: _ :: _, h =>
    (Bool.and_eq_true _ _).mpr
      ⟨((Bool.and_eq_true _ _).mp h).1, pairsOk_append_left ((Bool.and_eq_true _ _).mp h).2⟩

theorem pairsOk_append_right {p} {m : List Char} :
    ∀ {l : List Char}, pairsOk p (l ++ m) = true → pairsOk p m = true
  | [], h => h
  | _ :: t, h => pairsOk_append_right (l := t) (pairsOk_tail h)

theorem isPySpace_collapseChar (c : Char) :
    isPySpace (if isPySpace c then ' ' else c) = isPySpace c := by
  cases h : isPySpace c
  · rw [if_neg (by simp)]
    exact h
  · rw [if_pos (by simp)]
    decide

theorem collapseWs_singleton (c : Char) :
    collapseWs [c] = [if isPySpace c then ' ' else c] := by
  simp only [collapseWs]
  cases h : isPySpace c <;> simp

theorem collapseWs_cons_cons_pos (a b : Char) (rest : List Char)
    (h : (isPySpace a && isPySpace b) = true) :
    collapseWs (a :: b :: rest) = collapseWs (b :: rest) := by
  simp only [collapseWs, if_pos (by simp [h] : (isPySpace a && isPySpace b) = true)]

theorem collapseWs_cons_cons_neg (a b : Char) (rest : List Char)
    (h : (isPySpace a && isPySpace b) = false) :
    collapseWs (a :: b :: rest) =
      (if isPySpace a then ' ' else a) :: collapseWs (b :: rest) := by
  simp only [collapseWs, if_neg (by simp [h] : ¬ (isPySpace a && isPySpace b) = true)]

theorem head?_collapseWs : ∀ l : List Char,
    (collapseWs l).head? = l.head?.map (fun c => if isPySpace c then ' ' else c)
  | [] => rfl
  | [c] => by rw [collapseWs_singleton]; rfl
  | a :: b :: rest => by
    have IH := head?_collapseWs (b :: rest)
    cases hab : (isPySpace a && isPySpace b)
    · rw [collapseWs_cons_cons_neg a b rest hab]; rfl
    · rw [collapseWs_cons_cons_pos a b rest hab, IH]
      have ha := ((Bool.and_eq_true _ _).mp hab).1
      have hb := ((Bool.and_eq_true _ _).mp hab).2
      simp [ha, hb]

theorem collapseWs_pairsOk : ∀ l : List Char, pairsOk noWsPair (collapseWs l) = true
  | [] => rfl
  | [c] => by rw [collapseWs_singleton]; rfl
  | a :: b :: rest => by
    have IH := collapseWs_pairsOk (b :: rest)
    have hh := head?_collapseWs (b :: rest)
    cases hab : (isPySpace a && isPySpace b)
    · rcases hcons : collapseWs (b :: rest) with _ | ⟨c, t⟩
      · rw [hcons] at hh; simp at hh
      · rw [hcons] at hh IH
        have hc : c = if isPySpace b then ' ' else b := by simpa using hh
        have hrel : noWsPair (if isPySpace a then ' ' else a) c = true := by
          subst hc
          simp only [noWsPair, isPySpace_collapseChar, hab]
          rfl
        rw [collapseWs_cons_cons_neg a b rest hab, hcons]
        show (noWsPair (if isPySpace a then ' ' else a) c && pairsOk noWsPair (c :: t)) = true
        rw [hrel, IH]
        rfl
    · rw [collapseWs_cons_cons_pos a b rest hab]; exact IH

theorem collapseWs_allSpace :
    ∀ (l : List Char), ∀ c ∈ collapseWs l, isPySpace c = true → c = ' '
  | [], c, hc, _ => by simp [collapseWs] at hc
  | [d], c, hc, hws => by
    rw [collapseWs_singleton] at hc
    cases h : isPySpace d
    · rw [if_neg (by simp [h])] at hc
      have : c = d := by simpa using hc
      subst this; rw [h] at hws; cases hws
    · rw [if_pos (by simp [h])] at hc
      simpa using hc
  | a :: b :: rest, c, hc, hws => by
    cases hab : (isPySpace a && isPySpace b)
    · rw [collapseWs_cons_cons_neg a b rest hab] at hc
      rcases List.mem_cons.mp hc with h1 | h2
      · cases ha : isPySpace a
        · rw [if_neg (by simp [ha])] at h1; subst h1; rw [ha] at hws; cases hws
        · rw [if_pos (by simp [ha])] at h1; exact h1
      · exact collapseWs_allSpace (b :: rest) c h2 hws
    · rw [collapseWs_cons_cons_pos a b rest hab] at hc
      exact collapseWs_allSpace (b :: rest) c hc hws

theorem mem_collapseWs : ∀ (l : List Char), ∀ c ∈ collapseWs l, c = ' ' ∨ c ∈ l
  | [], c, hc => by simp [collapseWs] at hc
  | [d], c, hc => by
    rw [collapseWs_singleton] at hc
    cases h : isPySpace d
    · rw [if_neg (by simp [h])] at hc
      exact Or.inr (by simpa using hc)
    · rw [if_pos (by simp [h])] at hc
      exact Or.inl (by simpa using hc)
  | a :: b :: rest, c, hc => by
    cases hab : (isPySpace a && isPySpace b)
    · rw [collapseWs_cons_cons_neg a b rest hab] at hc
      rcases List.mem_cons.mp hc with h1 | h2
      · cases ha : isPySpace a
        · rw [if_neg (by simp [ha])] at h1; subst h1
          exact Or.inr (List.mem_cons_self _ _)
        · rw [if_pos (by simp [ha])] at h1; exact Or.inl h1
      · rcases mem_collapseWs (b :: rest) c h2 with h | h
        · exact Or.inl h
        · exact Or.inr (List.mem_cons_of_mem a h)
    · rw [collapseWs_cons_cons_pos a b rest hab] at hc
      rcases mem_collapseWs (b :: rest) c hc with h | h
      · exact Or.inl h
      · exact Or.inr (List.mem_cons_of_mem a h)

theorem mem_collapseWs_of_not_ws :
    ∀ (l : List Char), ∀ c ∈ l, isPySpace c = false → c ∈ collapseWs l
  | [], c, hc, _ => by simp at hc
  | [d], c, hc, hws => by
    have : c = d := by simpa using hc
    subst this
    rw [collapseWs_singleton, if_neg (by simp [hws])]
    exact List.mem_cons_self _ _
  | a :: b :: rest, c, hc, hws => by
    cases hab : (isPySpace a && isPySpace b)
    · rw [collapseWs_cons_cons_neg a b rest hab]
      rcases List.mem_cons.mp hc with h | h
      · subst h
        rw [if_neg (by simp [hws])]
        exact List.mem_cons_self _ _
      · exact List.mem_cons_of_mem _ (mem_collapseWs_of_not_ws (b :: rest) c h hws)
    · rw [collapseWs_cons_cons_pos a b rest hab]
      have ha := ((Bool.and_eq_true _ _).mp hab).1
      have hne : c ≠ a := fun h => by subst h; rw [ha] at hws; cases hws
      have hmem : c ∈ b :: rest := by
        rcases List.mem_cons.mp hc with h | h
        · exact absurd h hne
        · exact h
      exact mem_collapseWs_of_not_ws (b :: rest) c hmem hws

theorem collapseWs_eq_self :
    ∀ l : List Char, (∀ c ∈ l, isPySpace c = true → c = ' ') →
      pairsOk noWsPair l = true → collapseWs l = l
  | [], _, _ => rfl
  | [d], hall, _ => by
    rw [collapseWs_singleton]
    cases h : isPySpace d
    · rw [if_neg (by simp [h])]
    · rw [if_pos (by simp [h]), hall d (by simp) h]
  | a :: b :: rest, hall, hpair => by
    have hab : (isPySpace a && isPySpace b) = false := by
      have h1 := ((Bool.and_eq_true _ _).mp hpair).1
      cases h : (isPySpace a && isPySpace b)
      · rfl
      · rw [noWsPair, h] at h1; cases h1
    have IH := collapseWs_eq_self (b :: rest)
      (fun c hc hw => hall c (List.mem_cons_of_mem a hc) hw)
      ((Bool.and_eq_true _ _).mp hpair).2
    have himg : (if isPySpace a then ' ' else a) = a := by
      cases ha : isPySpace a
      · rw [if_neg (by simp [ha])]
      · rw [if_pos (by simp [ha]), hall a (by simp) ha]
    rw [collapseWs_cons_cons_neg a b rest hab, IH, himg]

theorem head?_dropWhile_not (p : Char → Bool) :
    ∀ (l : List Char) (c : Char), (l.dropWhile p).head? = some c → p c = false
  | [], c, h => by simp [List.dropWhile] at h
  | a :: t, c, h => by
    cases ha : p a
    · rw [List.dropWhile_cons, if_neg (by simp [ha])] at h
      have : a = c := by simpa using h
      subst this; exact ha
    · rw [List.dropWhile_cons, if_pos (by simp [ha])] at h
      exact head?_dropWhile_not p t c h

theorem dropWhile_eq_self_of_head (p : Char → Bool) (l : List Char)
    (h : ∀ c, l.head? = some c → p c = false) : l.dropWhile p = l := by
  cases l with
  | nil => rfl
  | cons a t => rw [List.dropWhile_cons, if_neg (by simp [h a rfl])]

theorem stripStart_decomp (l : List Char) :
    l.takeWhile isPySpace ++ stripStart l = l :=
  List.takeWhile_append_dropWhile isPySpace l

theorem stripEnd_decomp (l : List Char) :
    stripEnd l ++ (l.reverse.takeWhile isPySpace).reverse = l := by
  have h := congrArg List.reverse
    (List.takeWhile_append_dropWhile (p := isPySpace) (l := l.reverse))
  rw [List.reverse_append, List.reverse_reverse] at h
  exact h

theorem stripEnd_head (l : List Char) (c : Char)
    (h : (stripEnd l).head? = some c) : l.head? = some c := by
  have hd := stripEnd_decomp l
  rcases hse : stripEnd l with _ | ⟨a, t⟩
  · rw [hse] at h; cases h
  · rw [hse] at h hd
    rw [← hd]
    simpa using h

theorem stripEnd_getLast_not_ws (l : List Char) (c : Char)
    (h : (stripEnd l).getLast? = some c) : isPySpace c = false := by
  rw [stripEnd, List.getLast?_reverse] at h
  exact head?_dropWhile_not isPySpace _ c h

theorem stripWs_head_not_ws (l : List Char) (c : Char)
    (h : (stripWs l).head? = some c) : isPySpace c = false :=
  head?_dropWhile_not isPySpace l c (stripEnd_head _ _ h)

theorem stripWs_getLast_not_ws (l : List Char) (c : Char)
    (h : (stripWs l).getLast? = some c) : isPySpace c = false :=
  stripEnd_getLast_not_ws _ _ h

theorem stripWs_eq_self (l : List Char)
    (h1 : ∀ c, l.head? = some c → isPySpace c = false)
    (h2 : ∀ c, l.getLast? = some c → isPySpace c = false) :
    stripWs l = l := by
  have hs : stripStart l = l := dropWhile_eq_self_of_head isPySpace l h1
  rw [stripWs, hs, stripEnd]
  rw [dropWhile_eq_self_of_head isPySpace l.reverse
    (fun c hc => h2 c (by rwa [List.head?_reverse] at hc)), List.reverse_reverse]

theorem stripWs_stripWs (l : List Char) : stripWs (stripWs l) = stripWs l :=
  stripWs_eq_self _ (stripWs_head_not_ws l) (stripWs_getLast_not_ws l)

theorem pairsOk_stripStart {p} (l : List Char) (h : pairsOk p l = true) :
    pairsOk p (stripStart l) = true :=
  pairsOk_append_right (l := l.takeWhile isPySpace) (by rwa [stripStart_decomp l])

theorem pairsOk_stripEnd {p} (l : List Char) (h : pairsOk p l = true) :
    pairsOk p (stripEnd l) = true :=
  pairsOk_append_left (m := (l.reverse.takeWhile isPySpace).reverse)
    (by rwa [stripEnd_decomp l])

theorem pairsOk_stripWs {p} (l : List Char) (h : pairsOk p l = true) :
    pairsOk p (stripWs l) = true :=
  pairsOk_stripEnd _ (pairsOk_stripStart _ h)

theorem mem_of_mem_stripStart {c : Char} {l : List Char} (h : c ∈ stripStart l) :
    c ∈ l := by
  rw [← stripStart_decomp l]
  exact List.mem_append_right _ h

theorem mem_of_mem_stripEnd {c : Char} {l : List Char} (h : c ∈ stripEnd l) :
    c ∈ l := by
  rw [← stripEnd_decomp l]
  exact List.mem_append_left _ h

theorem mem_of_mem_stripWs {c : Char} {l : List Char} (h : c ∈ stripWs l) :
    c ∈ l :=
  mem_of_mem_stripStart (mem_of_mem_stripEnd h)

theorem pairsOk_dropLast {p} (l : List Char) (h : pairsOk p l = true) :
    pairsOk p l.dropLast = true := by
  by_cases hl : l = []
  · subst hl; exact h
  · exact pairsOk_append_left (m := [l.getLast hl])
      (by rwa [List.dropLast_append_getLast hl])

theorem pairsOk_stripOuterQuotes {p} (l : List Char) (h : pairsOk p l = true) :
    pairsOk p (stripOuterQuotes l) = true := by
  unfold stripOuterQuotes
  split
  · exact pairsOk_dropLast _ (pairsOk_tail h)
  · exact h

theorem mem_of_mem_stripOuterQuotes {c : Char} {l : List Char}
    (h : c ∈ stripOuterQuotes l) : c ∈ l := by
  unfold stripOuterQuotes at h
  split at h
  · exact List.mem_of_mem_tail (List.mem_of_mem_dropLast h)
  · exact h

/-- Everything after whitespace collapse keeps only single ASCII spaces as
whitespace: invariant carried to the trimmed string. -/
theorem postCollapse_allSpace (x : List Char) :
    ∀ c ∈ stripWs (collapseWs x), isPySpace c = true → c = ' ' :=
  fun c hc hw => collapseWs_allSpace x c (mem_of_mem_stripWs hc) hw

theorem postCollapse_pairsOk (x : List Char) :
    pairsOk noWsPair (stripWs (collapseWs x)) = true :=
  pairsOk_stripWs _ (collapseWs_pairsOk x)

theorem postCollapse_no_newline (x : List Char) :
    ∀ c ∈ stripWs (collapseWs x), c ≠ '\n' := by
  intro c hc h
  subst h
  have := postCollapse_allSpace x '\n' hc (by decide)
  exact absurd this (by decide)

/-! ### Characterization of the outer-quote strip -/

theorem isQuoteWrapped_iff (l : List Char) (hnl : ∀ c ∈ l, c ≠ '\n') :
    isQuoteWrapped l = true ↔
      ∃ q, (q = '"' ∨ q = '\x27') ∧ l.head? = some q ∧ l.getLast? = some q ∧
        3 ≤ l.length := by
  have hall : l.all (fun c => c != '\n') = true := by
    rw [List.all_eq_true]
    intro c hc
    simpa using hnl c hc
  unfold isQuoteWrapped
  cases hh : l.head? with
  | none =>
    cases hg : l.getLast? <;> simp [hh]
  | some a =>
    cases hg : l.getLast? with
    | none => simp [hg]
    | some b =>
      simp only [hall, Bool.and_true, Bool.and_eq_true, beq_iff_eq, decide_eq_true_eq,
        isQuoteChar, Bool.or_eq_true]
      constructor
      · rintro ⟨⟨hq, hab⟩, hlen⟩
        exact ⟨a, by simpa using hq, rfl, by rw [hab], hlen⟩
      · rintro ⟨q, hq, hq1, hq2, hlen⟩
        have ha : a = q := Option.some.inj hq1
        have hb : b = q := Option.some.inj hq2
        subst ha
        exact ⟨⟨by simpa using hq, hb.symm⟩, hlen⟩

theorem pairsOk_imp {p q : Char → Char → Bool}
    (hpq : ∀ a b, p a b = true → q a b = true) :
    ∀ {l : List Char}, pairsOk p l = true → pairsOk q l = true
  | [], _ => rfl
  | [_], _ => rfl
  | a :: b :: _, h =>
    (Bool.and_eq_true _ _).mpr
      ⟨hpq a b ((Bool.and_eq_true _ _).mp h).1, pairsOk_imp hpq ((Bool.and_eq_true _ _).mp h).2⟩

theorem noWsPair_imp_noSpacePair (a b : Char) (h : noWsPair a b = true) :
    (!(a == ' ' && b == ' ')) = true := by
  cases ha : a == ' '
  · simp [ha]
  · cases hb : b == ' '
    · simp [hb]
    · have ha' : a = ' ' := by simpa using ha
      have hb' : b = ' ' := by simpa using hb
      subst ha'
      subst hb'
      exact absurd h (by decide)

theorem normalizeRow_pairsOk (s : List Char) :
    pairsOk noWsPair (normalizeRow s) = true :=
  pairsOk_stripWs _ (pairsOk_stripOuterQuotes _
    (postCollapse_pairsOk (replaceEllipsis (ftfyFix s))))

theorem normalizeRow_allSpace (s : List Char) :
    ∀ c ∈ normalizeRow s, isPySpace c = true → c = ' ' :=
  fun c hc hw =>
    postCollapse_allSpace (replaceEllipsis (ftfyFix s)) c
      (mem_of_mem_stripOuterQuotes (mem_of_mem_stripWs hc)) hw

/-! ### Character-level identities for a second normalization pass -/

theorem uncurlChar_not_curly (c : Char) :
    uncurlChar c ≠ '“' ∧ uncurlChar c ≠ '”' ∧ uncurlChar c ≠ '‘' ∧ uncurlChar c ≠ '’' := by
  unfold uncurlChar
  by_cases h1 : (c = '“' || c = '”') = true
  · rw [if_pos h1]
    exact ⟨by decide, by decide, by decide, by decide⟩
  · rw [if_neg h1]
    by_cases h2 : (c = '‘' || c = '’') = true
    · rw [if_pos h2]
      exact ⟨by decide, by decide, by decide, by decide⟩
    · rw [if_neg h2]
      simp only [Bool.or_eq_true, decide_eq_true_eq, not_or] at h1 h2
      exact ⟨h1.1, h1.2, h2.1, h2.2⟩

theorem uncurlChar_eq_self (c : Char) (h1 : c ≠ '“') (h2 : c ≠ '”')
    (h3 : c ≠ '‘') (h4 : c ≠ '’') : uncurlChar c = c := by
  unfold uncurlChar
  rw [if_neg (by simp [h1, h2]), if_neg (by simp [h3, h4])]

theorem ftfyFix_eq_self : ∀ l : List Char,
    (∀ c ∈ l, c ≠ '“' ∧ c ≠ '”' ∧ c ≠ '‘' ∧ c ≠ '’') → ftfyFix l = l
  | [], _ => rfl
  | a :: t, h => by
    have ha := h a (List.mem_cons_self a t)
    show uncurlChar a :: ftfyFix t = a :: t
    rw [uncurlChar_eq_self a ha.1 ha.2.1 ha.2.2.1 ha.2.2.2,
      ftfyFix_eq_self t (fun c hc => h c (List.mem_cons_of_mem a hc))]

theorem ftfyFix_not_curly (l : List Char) (c : Char) (hc : c ∈ ftfyFix l) :
    c ≠ '“' ∧ c ≠ '”' ∧ c ≠ '‘' ∧ c ≠ '’' := by
  unfold ftfyFix at hc
  rcases List.mem_map.mp hc with ⟨d, _, rfl⟩
  exact uncurlChar_not_curly d

theorem mem_replaceEllipsis : ∀ (l : List Char), ∀ c ∈ replaceEllipsis l, c = '.' ∨ c ∈ l
  | [], c, hc => by simp [replaceEllipsis] at hc
  | a :: t, c, hc => by
    have hc' : c ∈ (if a = '…' then ['.', '.', '.'] else [a]) ++ replaceEllipsis t := hc
    rcases List.mem_append.mp hc' with h | h
    · by_cases ha : a = '…'
      · rw [if_pos ha] at h
        have : c = '.' := by simpa using h
        exact Or.inl this
      · rw [if_neg ha] at h
        have : c = a := by simpa using h
        exact Or.inr (this ▸ List.mem_cons_self a t)
    · rcases mem_replaceEllipsis t c h with h' | h'
      · exact Or.inl h'
      · exact Or.inr (List.mem_cons_of_mem a h')

theorem replaceEllipsis_no_ellipsis : ∀ l : List Char, '…' ∉ replaceEllipsis l
  | [], h => by simp [replaceEllipsis] at h
  | a :: t, h => by
    have h' : '…' ∈ (if a = '…' then ['.', '.', '.'] else [a]) ++ replaceEllipsis t := h
    rcases List.mem_append.mp h' with hm | hm
    · by_cases ha : a = '…'
      · rw [if_pos ha] at hm
        simp at hm
      · rw [if_neg ha] at hm
        have : ('…' : Char) = a := by simpa using hm
        exact ha this.symm
    · exact replaceEllipsis_no_ellipsis t hm

theorem replaceEllipsis_eq_self : ∀ l : List Char, '…' ∉ l → replaceEllipsis l = l
  | [], _ => rfl
  | a :: t, h => by
    have ha : a ≠ '…' := fun he => h (by rw [← he]; exact List.mem_cons_self a t)
    show (if a = '…' then ['.', '.', '.'] else [a]) ++ replaceEllipsis t = a :: t
    rw [if_neg ha, replaceEllipsis_eq_self t (fun hm => h (List.mem_cons_of_mem a hm))]
    rfl

/-- Every character of a normalized row: no typographic quote and no ellipsis
character survives the pipeline. -/
theorem normalizeRow_chars (s : List Char) (c : Char) (hc : c ∈ normalizeRow s) :
    c ≠ '“' ∧ c ≠ '”' ∧ c ≠ '‘' ∧ c ≠ '’' ∧ c ≠ '…' := by
  have h1 : c ∈ collapseWs (replaceEllipsis (ftfyFix s)) :=
    mem_of_mem_stripWs (mem_of_mem_stripOuterQuotes (mem_of_mem_stripWs hc))
  rcases mem_collapseWs _ c h1 with h | h
  · subst h
    exact ⟨by decide, by decide, by decide, by decide, by decide⟩
  · have hne : c ≠ '…' := fun he => replaceEllipsis_no_ellipsis _ (he ▸ h)
    rcases mem_replaceEllipsis _ c h with h2 | h2
    · subst h2
      exact ⟨by decide, by decide, by decide, by decide, hne⟩
    · have h3 := ftfyFix_not_curly _ c h2
      exact ⟨h3.1, h3.2.1, h3.2.2.1, h3.2.2.2, hne⟩

/-- C1, counterexample: the claim that normalization is idempotent on every
input with non-empty normalization is false: a doubly-quoted report is
stripped of one quote pair per pass, so a second pass strips again.  At the
concrete input consisting of two single quotes, the letters h i, and two
single quotes, the first normalization is non-empty, and normalizing it again
changes it. -/
theorem normalizeRow_not_idempotent_cex :
    normalizeRow ['\x27', '\x27', 'h', 'i', '\x27', '\x27'] ≠ [] ∧
    normalizeRow (normalizeRow ['\x27', '\x27', 'h', 'i', '\x27', '\x27']) ≠
      normalizeRow ['\x27', '\x27', 'h', 'i', '\x27', '\x27'] :=
  ⟨by decide, by decide⟩

/-- C1, amended: the normalizer is idempotent for every input whose
normalized result is not itself wrapped in a matching pair of straight quotes
(the one situation the counterexample exhibits, where a second pass strips a
further quote pair): if `isQuoteWrapped (normalizeRow s) = false` then
`normalizeRow (normalizeRow s) = normalizeRow s`. -/
theorem normalizeRow_idempotent_unless_requoted (s : List Char)
    (h : isQuoteWrapped (normalizeRow s) = false) :
    normalizeRow (normalizeRow s) = normalizeRow s := by
  have hchars := normalizeRow_chars s
  have hff : ftfyFix (normalizeRow s) = normalizeRow s :=
    ftfyFix_eq_self _ (fun c hc =>
      ⟨(hchars c hc).1, (hchars c hc).2.1, (hchars c hc).2.2.1, (hchars c hc).2.2.2.1⟩)
  have hre : replaceEllipsis (normalizeRow s) = normalizeRow s :=
    replaceEllipsis_eq_self _ (fun hm => (hchars '…' hm).2.2.2.2 rfl)
  have hcoll : collapseWs (normalizeRow s) = normalizeRow s :=
    collapseWs_eq_self _ (normalizeRow_allSpace s) (normalizeRow_pairsOk s)
  have hstrip : stripWs (normalizeRow s) = normalizeRow s :=
    stripWs_stripWs (stripOuterQuotes (preQuote s))
  have hsoq : stripOuterQuotes (normalizeRow s) = normalizeRow s := by
    unfold stripOuterQuotes
    rw [if_neg (by simp [h])]
  show stripWs (stripOuterQuotes (stripWs (collapseWs (replaceEllipsis
    (ftfyFix (normalizeRow s)))))) = normalizeRow s
  rw [hff, hre, hcoll, hstrip, hsoq, hstrip]

theorem normalizeRow_idempotent_unless_requoted_witness :
    normalizeRow (normalizeRow "hi there".toList) = normalizeRow "hi there".toList :=
  normalizeRow_idempotent_unless_requoted "hi there".toList (by decide)

/-- C2: on the whitespace-collapsed, trimmed string, the outer-quote step
removes exactly the first and last character - one pair of quote characters -
precisely when the whole string starts and ends with the same straight quote
(double or single) with at least one character between them; in every other
case (quotes only internal, mismatched ends, a lone quote character) the
string is returned unchanged, internal quotes untouched. -/
theorem stripOuterQuotes_strips_iff_wrapped (s : List Char) :
    ((∃ q, (q = '"' ∨ q = '\x27') ∧ (preQuote s).head? = some q ∧
        (preQuote s).getLast? = some q ∧ 3 ≤ (preQuote s).length) →
      stripOuterQuotes (preQuote s) = (preQuote s).tail.dropLast) ∧
    ((¬ ∃ q, (q = '"' ∨ q = '\x27') ∧ (preQuote s).head? = some q ∧
        (preQuote s).getLast? = some q ∧ 3 ≤ (preQuote s).length) →
      stripOuterQuotes (preQuote s) = preQuote s) := by
  have hnl : ∀ c ∈ preQuote s, c ≠ '\n' :=
    postCollapse_no_newline (replaceEllipsis (ftfyFix s))
  have hiff := isQuoteWrapped_iff (preQuote s) hnl
  constructor
  · intro hex
    unfold stripOuterQuotes
    rw [if_pos (hiff.mpr hex)]
  · intro hnex
    unfold stripOuterQuotes
    rw [if_neg (fun hw => hnex (hiff.mp hw))]

theorem stripOuterQuotes_strips_iff_wrapped_witness :
    stripOuterQuotes (preQuote ['\x27', 'a', 'b', '\x27']) = ['a', 'b'] ∧
    stripOuterQuotes (preQuote ['x', '\x27', 'y', '\x27', 'z']) =
      preQuote ['x', '\x27', 'y', '\x27', 'z'] := by
  constructor
  · have h := (stripOuterQuotes_strips_iff_wrapped ['\x27', 'a', 'b', '\x27']).1
      ⟨'\x27', Or.inr rfl, by decide, by decide, by decide⟩
    rw [h]
    decide
  · refine (stripOuterQuotes_strips_iff_wrapped ['x', '\x27', 'y', '\x27', 'z']).2 ?_
    rintro ⟨q, hq, hh, -, -⟩
    have hpx : (preQuote ['x', '\x27', 'y', '\x27', 'z']).head? = some 'x' := by decide
    rw [hpx] at hh
    have hqx : 'x' = q := Option.some.inj hh
    rcases hq with h | h <;> rw [← hqx] at h <;> exact absurd h (by decide)

/-- C4: for every input string the normalized output has no two consecutive
space characters and neither starts nor ends with a whitespace character
(this is the final result, after the outer-quote strip and the re-trim). -/
theorem normalizeRow_ws_invariant (s : List Char) :
    pairsOk (fun a b => !(a == ' ' && b == ' ')) (normalizeRow s) = true ∧
    (∀ c, (normalizeRow s).head? = some c → isPySpace c = false) ∧
    (∀ c, (normalizeRow s).getLast? = some c → isPySpace c = false) :=
  ⟨pairsOk_imp noWsPair_imp_noSpacePair (normalizeRow_pairsOk s),
   fun c h => stripWs_head_not_ws _ c h,
   fun c h => stripWs_getLast_not_ws _ c h⟩

theorem normalizeRow_ws_invariant_witness :
    isPySpace 'D' = false ∧ isPySpace '3' = false :=
  ⟨(normalizeRow_ws_invariant "  Dream  3 ".toList).2.1 'D' (by decide),
   (normalizeRow_ws_invariant "  Dream  3 ".toList).2.2 '3' (by decide)⟩

/-- C3: if any row of the report column normalizes to the empty string, batch
normalization fails with the `ValueError` message reporting the exact number
of empty rows and never returns a table; and whenever it does return, the
output has exactly one row per input row, so rows are never silently
dropped. -/
theorem normalizeColumn_empty_report_fatal (rows : List (List Char))
    (h : 0 < emptyCountAfter rows) :
    (normalizeColumn rows).2 = Except.error (emptyReportError (emptyCountAfter rows)) ∧
    (∀ out, (normalizeColumn rows).2 ≠ Except.ok out) ∧
    (∀ rows2 out, (normalizeColumn rows2).2 = Except.ok out → out.length = rows2.length) := by
  have heq : ∀ rs : List (List Char), (normalizeColumn rs).2 =
      if 0 < emptyCountAfter rs then Except.error (emptyReportError (emptyCountAfter rs))
      else Except.ok (rs.map normalizeRow) := fun _ => rfl
  refine ⟨?_, ?_, ?_⟩
  · rw [heq rows, if_pos h]
  · intro out hout
    rw [heq rows, if_pos h] at hout
    cases hout
  · intro rows2 out hout
    rw [heq rows2] at hout
    by_cases h2 : 0 < emptyCountAfter rows2
    · rw [if_pos h2] at hout
      cases hout
    · rw [if_neg h2] at hout
      have : rows2.map normalizeRow = out := Except.ok.inj hout
      rw [← this, List.length_map]

theorem normalizeColumn_empty_report_fatal_witness :
    (normalizeColumn [[' ']]).2 = Except.error (emptyReportError 1) := by
  have h := (normalizeColumn_empty_report_fatal [[' ']] (by decide)).1
  rw [h]
  have h1 : emptyCountAfter [[' ']] = 1 := by decide
  rw [h1]

theorem mem_dropWhile_of_not (p : Char → Bool) :
    ∀ (l : List Char) (c : Char), c ∈ l → p c = false → c ∈ l.dropWhile p
  | [], c, hc, _ => by simp at hc
  | a :: t, c, hc, hp => by
    cases ha : p a
    · rwa [List.dropWhile_cons, if_neg (by simp [ha])]
    · rw [List.dropWhile_cons, if_pos (by simp [ha])]
      have hne : c ≠ a := fun he => by subst he; rw [ha] at hp; cases hp
      rcases List.mem_cons.mp hc with h | h
      · exact absurd h hne
      · exact mem_dropWhile_of_not p t c h hp

theorem mem_stripWs_of_not_ws (l : List Char) (c : Char)
    (hc : c ∈ l) (hp : isPySpace c = false) : c ∈ stripWs l := by
  rw [stripWs, stripEnd, List.mem_reverse]
  refine mem_dropWhile_of_not _ _ _ ?_ hp
  rw [List.mem_reverse]
  exact mem_dropWhile_of_not _ _ _ hc hp

theorem isQuoteWrapped_parts (l : List Char) (hw : isQuoteWrapped l = true) :
    ∃ a, l.head? = some a ∧ l.getLast? = some a ∧ isQuoteChar a = true ∧
      3 ≤ l.length := by
  unfold isQuoteWrapped at hw
  cases hh : l.head? with
  | none => rw [hh] at hw; cases hg : l.getLast? <;> rw [hg] at hw <;> cases hw
  | some a =>
    rw [hh] at hw
    cases hg : l.getLast? with
    | none => rw [hg] at hw; cases hw
    | some b =>
      rw [hg] at hw
      have h1 := (Bool.and_eq_true _ _).mp hw
      have h2 := (Bool.and_eq_true _ _).mp h1.1
      have h3 := (Bool.and_eq_true _ _).mp h2.1
      have hab : a = b := by simpa using h3.2
      have hlen : 3 ≤ l.length := by simpa using h2.2
      exact ⟨a, rfl, by rw [hab], h3.1, hlen⟩

theorem mem_stripOuterQuotes_of_ne_quote (l : List Char) (c : Char)
    (hc : c ∈ l) (hq : isQuoteChar c = false) : c ∈ stripOuterQuotes l := by
  unfold stripOuterQuotes
  split
  · rename_i hw
    obtain ⟨a, hh, hg, haq, hlen⟩ := isQuoteWrapped_parts l hw
    have hca : c ≠ a := fun he => by subst he; rw [hq] at haq; cases haq
    cases l with
    | nil => cases hc
    | cons x t =>
      have hxa : x = a := by simpa using hh
      have hct : c ∈ t := by
        rcases List.mem_cons.mp hc with h | h
        · rw [hxa] at h; exact absurd h hca
        · exact h
      have htne : t ≠ [] := by
        intro he
        subst he
        simp at hlen
      show c ∈ t.dropLast
      have h1 : t.getLast? = some a := by
        cases t with
        | nil => exact absurd rfl htne
        | cons y u =>
          rw [← hg]
          exact List.getLast?_cons_cons.symm
      have hgt : t.getLast htne = a := by
        have h2 := List.getLast?_eq_getLast t htne
        rw [h1] at h2
        exact (Option.some.inj h2).symm
      have hdec := List.dropLast_append_getLast htne
      have : c ∈ t.dropLast ++ [t.getLast htne] := by rw [hdec]; exact hct
      rcases List.mem_append.mp this with h | h
      · exact h
      · have : c = t.getLast htne := by simpa using h
        rw [hgt] at this
        exact absurd this hca
  · exact hc

/-- C5: a replacement character still present after the character-level
rewrites (ftfy fixing and ellipsis replacement) is never removed by the
remaining steps - it appears in the normalized output row verbatim - and the
batch emits exactly one warning whose message states the exact number of
affected rows. -/
theorem normalizeColumn_replacement_preserved_warned (rows : List (List Char))
    (r : List Char) (hr : r ∈ rows)
    (hc : '�' ∈ replaceEllipsis (ftfyFix r)) :
    '�' ∈ normalizeRow r ∧
    0 < replacementCountAfter rows ∧
    (normalizeColumn rows).1 = [replacementWarning (replacementCountAfter rows)] := by
  have hout : '�' ∈ normalizeRow r := by
    unfold normalizeRow
    refine mem_stripWs_of_not_ws _ _ ?_ (by decide)
    refine mem_stripOuterQuotes_of_ne_quote _ _ ?_ (by decide)
    unfold preQuote
    refine mem_stripWs_of_not_ws _ _ ?_ (by decide)
    exact mem_collapseWs_of_not_ws _ _ hc (by decide)
  have hcount : 0 < replacementCountAfter rows := by
    unfold replacementCountAfter
    have hmem : normalizeRow r ∈ (rows.map normalizeRow).filter containsRep := by
      rw [List.mem_filter]
      exact ⟨List.mem_map_of_mem _ hr, by simpa [containsRep] using hout⟩
    rw [List.length_pos]
    exact List.ne_nil_of_mem hmem
  refine ⟨hout, hcount, ?_⟩
  have heq : (normalizeColumn rows).1 =
      if 0 < replacementCountAfter rows
      then [replacementWarning (replacementCountAfter rows)] else [] := rfl
  rw [heq, if_pos hcount]

theorem normalizeColumn_replacement_preserved_warned_witness :
    '�' ∈ normalizeRow ['�'] ∧ 0 < replacementCountAfter [['�']] ∧
    (normalizeColumn [['�']]).1 = [replacementWarning 1] := by
  have h := normalizeColumn_replacement_preserved_warned [['�']] ['�']
    (by decide) (by decide)
  refine ⟨h.1, h.2.1, ?_⟩
  rw [h.2.2]
  decide

/-! ### Registry model (`_registry.py`) -/

/-- One version's record inside an entry's `versions` mapping: the registry
schema (`scripts/validate_registry.py`) requires `download_url`, `hash` and
`doi`. -/
structure VersionInfo where
  download_url : String
  hash : String
  doi : String
deriving DecidableEq

/-- A value stored in an entry dict: a scalar string or the versions
mapping. -/
inductive RVal where
  | s (v : String)
  | vmap (m : List (String × VersionInfo))
deriving DecidableEq

/-- A Python dict with string keys, as an association list in insertion
order. -/
abbrev RDict := List (String × RVal)

def alistLookup {α : Type} : List (String × α) → String → Option α
  | [], _ => none
  | (k2, v) :: rest, k => if k2 = k then some v else alistLookup rest k

/-- Python dict assignment: overwrite in place when the key exists, append
otherwise. -/
def alistSet {α : Type} : List (String × α) → String → α → List (String × α)
  | [], k, v => [(k, v)]
  | (k2, v2) :: rest, k, v =>
    if k2 = k then (k, v) :: rest else (k2, v2) :: alistSet rest k v

/-- Python `del d[k]`. -/
def alistDel {α : Type} (d : List (String × α)) (k : String) : List (String × α) :=
  d.filter (fun kv => kv.1 != k)

/-- The store of entry dicts owned by the process-wide registry cache,
addressed by position.  `get_entry` copies the looked-up dict
(`corpora[name].copy()`) to a fresh address and mutates only the copy. -/
abbrev Heap := List RDict

def heapGet : Heap → Nat → RDict
  | [], _ => []
  | d :: _, 0 => d
  | _ :: t, n + 1 => heapGet t n

def heapSet : Heap → Nat → RDict → Heap
  | [], _, _ => []
  | _ :: t, 0, d => d :: t
  | e :: t, n + 1, d => e :: heapSet t n d

/-- The corpora mapping of the cached registry: corpus name to the address of
its entry dict. -/
abbrev Corpora := List (String × Nat)

def insertSorted (x : String) : List String → List String
  | [] => [x]
  | y :: t => if x ≤ y then x :: y :: t else y :: insertSorted x t

/-- Python `sorted` on a list of strings. -/
def sortStrings : List String → List String
  | [] => []
  | x :: t => insertSorted x (sortStrings t)

/-- The KeyError message for an unknown corpus name, enumerating the sorted
registered names. -/
def corpusNotFoundMsg (name : String) (names : List String) : String :=
  "Corpus \x27" ++ name ++ "\x27 not found. Available: " ++
  String.intercalate ", " (sortStrings names)

/-- The KeyError message for an unknown version, enumerating the sorted
versions of the entry. -/
def versionNotFoundMsg (version name : String) (versions : List String) : String :=
  "Version \x27" ++ version ++ "\x27 not found for \x27" ++ name ++
  "\x27. Available: " ++ String.intercalate ", " (sortStrings versions)

/-- `entry.get("versions", {})`, with the value expected to be the versions
mapping. -/
def getVersions (entry : RDict) : List (String × VersionInfo) :=
  match alistLookup entry "versions" with
  | some (RVal.vmap m) => m
  | _ => []

/-- `version = entry["latest"]` when no version argument was given (a missing
or non-string `latest` would be a Python KeyError, modelled as `none`). -/
def resolveVersion (entry : RDict) (version : Option String) : Option String :=
  match version with
  | some v => some v
  | none =>
    match alistLookup entry "latest" with
    | some (RVal.s v) => some v
    | _ => none

/-- `get_entry(name, version=None)` of `_registry.py`, with the registry
cache passed explicitly: look up the entry's address; copy the entry dict to
a fresh address (`entry = corpora[name].copy()`); resolve the version; fail
with the enumerating KeyError message when the name or version is unknown;
otherwise merge the chosen version's `download_url` and `hash` into the copy,
delete the `versions` and `latest` keys of the copy, and return it together
with the final heap.  Every mutation happens at the fresh address. -/
def get_entry (h : Heap) (corpora : Corpora) (name : String)
    (version : Option String) : Except String RDict × Heap :=
  match alistLookup corpora name with
  | none => (Except.error (corpusNotFoundMsg name (corpora.map Prod.fst)), h)
  | some a0 =>
    let orig := heapGet h a0
    let h1 := h ++ [orig]
    let addr := h.length
    match resolveVersion (heapGet h1 addr) version with
    | none => (Except.error "KeyError: latest", h1)
    | some ver =>
      let versions := getVersions (heapGet h1 addr)
      match alistLookup versions ver with
      | none =>
        (Except.error (versionNotFoundMsg ver name (versions.map Prod.fst)), h1)
      | some vi =>
        let h2 := heapSet h1 addr (alistSet (heapGet h1 addr) "version" (RVal.s ver))
        let h3 := heapSet h2 addr
          (alistSet (heapGet h2 addr) "download_url" (RVal.s vi.download_url))
        let h4 := heapSet h3 addr (alistSet (heapGet h3 addr) "hash" (RVal.s vi.hash))
        let h5 := heapSet h4 addr (alistDel (heapGet h4 addr) "versions")
        let h6 := heapSet h5 addr (alistDel (heapGet h5 addr) "latest")
        (Except.ok (heapGet h6 addr), h6)

/-- The merged dict produced on the success path of `get_entry`. -/
def mergedEntry (orig : RDict) (ver : String) (vi : VersionInfo) : RDict :=
  alistDel (alistDel (alistSet (alistSet (alistSet orig "version" (RVal.s ver))
    "download_url" (RVal.s vi.download_url)) "hash" (RVal.s vi.hash)) "versions") "latest"

theorem alistLookup_set_self {α : Type} :
    ∀ (d : List (String × α)) (k : String) (v : α),
      alistLookup (alistSet d k v) k = some v
  | [], k, v => by simp [alistSet, alistLookup]
  | (k2, v2) :: rest, k, v => by
    by_cases h : k2 = k
    · rw [alistSet, if_pos h, alistLookup, if_pos rfl]
    · rw [alistSet, if_neg h, alistLookup, if_neg h]
      exact alistLookup_set_self rest k v

theorem alistLookup_set_ne {α : Type} (k k2 : String) (hne : k2 ≠ k) :
    ∀ (d : List (String × α)) (v : α),
      alistLookup (alistSet d k v) k2 = alistLookup d k2
  | [], v => by
    show alistLookup [(k, v)] k2 = none
    simp only [alistLookup]
    rw [if_neg (fun h => hne h.symm)]
  | (k3, v3) :: rest, v => by
    show alistLookup (if k3 = k then (k, v) :: rest else (k3, v3) :: alistSet rest k v) k2 =
      alistLookup ((k3, v3) :: rest) k2
    by_cases h : k3 = k
    · rw [if_pos h]
      simp only [alistLookup]
      rw [if_neg (fun h2 => hne h2.symm), if_neg (fun h2 : k3 = k2 => hne (h2 ▸ h))]
    · rw [if_neg h]
      simp only [alistLookup]
      by_cases h2 : k3 = k2
      · rw [if_pos h2, if_pos h2]
      · rw [if_neg h2, if_neg h2]
        exact alistLookup_set_ne k k2 hne rest v

theorem alistLookup_del_self {α : Type} :
    ∀ (d : List (String × α)) (k : String), alistLookup (alistDel d k) k = none
  | [], k => rfl
  | (k2, v2) :: rest, k => by
    by_cases h : k2 = k
    · rw [alistDel, List.filter_cons]
      have : ((k2, v2).1 != k) = false := by simp [h]
      rw [this]
      exact alistLookup_del_self rest k
    · rw [alistDel, List.filter_cons]
      have : ((k2, v2).1 != k) = true := by simp [h]
      rw [this]
      show alistLookup ((k2, v2) :: alistDel rest k) k = none
      rw [alistLookup, if_neg h]
      exact alistLookup_del_self rest k

theorem alistLookup_del_ne {α : Type} (k k2 : String) (hne : k2 ≠ k) :
    ∀ d : List (String × α), alistLookup (alistDel d k) k2 = alistLookup d k2
  | [] => rfl
  | (k3, v3) :: rest => by
    by_cases h : k3 = k
    · rw [alistDel, List.filter_cons]
      have : ((k3, v3).1 != k) = false := by simp [h]
      rw [this]
      show alistLookup (alistDel rest k) k2 = alistLookup ((k3, v3) :: rest) k2
      rw [alistLookup, if_neg (fun h2 : k3 = k2 => hne (h2 ▸ h))]
      exact alistLookup_del_ne k k2 hne rest
    · rw [alistDel, List.filter_cons]
      have : ((k3, v3).1 != k) = true := by simp [h]
      rw [this]
      show alistLookup ((k3, v3) :: alistDel rest k) k2 = alistLookup ((k3, v3) :: rest) k2
      rw [alistLookup, alistLookup]
      by_cases h2 : k3 = k2
      · rw [if_pos h2, if_pos h2]
      · rw [if_neg h2, if_neg h2]
        exact alistLookup_del_ne k k2 hne rest

theorem heapGet_append_self : ∀ (h : Heap) (d : RDict), heapGet (h ++ [d]) h.length = d
  | [], _ => rfl
  | _ :: t, d => heapGet_append_self t d

theorem heapGet_append_lt : ∀ (h : Heap) (d : RDict) (a : Nat), a < h.length →
    heapGet (h ++ [d]) a = heapGet h a
  | [], _, a, ha => absurd ha (by simp)
  | _ :: _, _, 0, _ => rfl
  | _ :: t, d, a + 1, ha => heapGet_append_lt t d a (Nat.lt_of_succ_lt_succ ha)

theorem heapSet_append_self : ∀ (h : Heap) (d d2 : RDict),
    heapSet (h ++ [d]) h.length d2 = h ++ [d2]
  | [], _, _ => rfl
  | e :: t, d, d2 => congrArg (e :: ·) (heapSet_append_self t d d2)

/-- The result component of `get_entry` depends on the heap only through the
looked-up entry dict. -/
theorem get_entry_fst (h : Heap) (corpora : Corpora) (name : String)
    (v : Option String) :
    (get_entry h corpora name v).1 =
      match alistLookup corpora name with
      | none => Except.error (corpusNotFoundMsg name (corpora.map Prod.fst))
      | some a0 =>
        match resolveVersion (heapGet h a0) v with
        | none => Except.error "KeyError: latest"
        | some ver =>
          match alistLookup (getVersions (heapGet h a0)) ver with
          | none =>
            Except.error (versionNotFoundMsg ver name
              ((getVersions (heapGet h a0)).map Prod.fst))
          | some vi => Except.ok (mergedEntry (heapGet h a0) ver vi) := by
  unfold get_entry
  split
  · rfl
  · simp only [heapGet_append_self]
    split
    · rfl
    · split
      · rfl
      · simp only [heapSet_append_self, heapGet_append_self, mergedEntry]

/-- The heap after `get_entry`: the original addresses are untouched; at most
one fresh dict (the mutated copy) is appended at the end. -/
theorem get_entry_snd (h : Heap) (corpora : Corpora) (name : String)
    (v : Option String) :
    (get_entry h corpora name v).2 =
      match alistLookup corpora name with
      | none => h
      | some a0 =>
        match resolveVersion (heapGet h a0) v with
        | none => h ++ [heapGet h a0]
        | some ver =>
          match alistLookup (getVersions (heapGet h a0)) ver with
          | none => h ++ [heapGet h a0]
          | some vi => h ++ [mergedEntry (heapGet h a0) ver vi] := by
  unfold get_entry
  split
  · rfl
  · simp only [heapGet_append_self]
    split
    · rfl
    · split
      · rfl
      · simp only [heapSet_append_self, heapGet_append_self, mergedEntry]

/-- The version record of the concrete counterexample registry; its `doi` is
nonempty. -/
def cexVersionInfo : VersionInfo :=
  ⟨"https://example.com/a.csv", "md5:abc", "10.1234/x"⟩

/-- The single entry of the concrete counterexample registry. -/
def cexEntry : RDict :=
  [("title", RVal.s "T"), ("latest", RVal.s "1"),
   ("versions", RVal.vmap [("1", cexVersionInfo)])]

def cexHeap : Heap := [cexEntry]

def cexCorpora : Corpora := [("alpha", 0)]

/-- C6, counterexample: at a concrete registry whose version "1" carries the
doi "10.1234/x", the mapping returned by `get_entry` consists of the entry's
scalar fields plus `version`, `download_url` and `hash` only - it has no
`doi` key at all - so the claim that the version's `doi` is merged into the
result is false.  (The `versions` and `latest` keys are, as claimed,
absent.) -/
theorem get_entry_doi_not_merged_cex :
    (get_entry cexHeap cexCorpora "alpha" (some "1")).1 =
      Except.ok [("title", RVal.s "T"), ("version", RVal.s "1"),
        ("download_url", RVal.s "https://example.com/a.csv"),
        ("hash", RVal.s "md5:abc")] ∧
    cexVersionInfo.doi = "10.1234/x" ∧
    alistLookup [("title", RVal.s "T"), ("version", RVal.s "1"),
        ("download_url", RVal.s "https://example.com/a.csv"),
        ("hash", RVal.s "md5:abc")] "doi" = none :=
  ⟨rfl, rfl, by decide⟩

/-- C6, amended: for a registered corpus name and a version present in the
entry's versions mapping, `get_entry` returns the entry's fields with the
chosen version's `download_url` and `hash` merged in, with the `versions` and
`latest` keys removed; the version's `doi` is not merged - the result binds
`"doi"` exactly as the entry itself did. -/
theorem get_entry_merges_url_hash_only (h : Heap) (corpora : Corpora)
    (name v : String) (a0 : Nat) (ha : alistLookup corpora name = some a0)
    (vi : VersionInfo)
    (hvi : alistLookup (getVersions (heapGet h a0)) v = some vi) :
    ∃ d, (get_entry h corpora name (some v)).1 = Except.ok d ∧
      alistLookup d "download_url" = some (RVal.s vi.download_url) ∧
      alistLookup d "hash" = some (RVal.s vi.hash) ∧
      alistLookup d "versions" = none ∧
      alistLookup d "latest" = none ∧
      alistLookup d "doi" = alistLookup (heapGet h a0) "doi" := by
  refine ⟨mergedEntry (heapGet h a0) v vi, ?_, ?_, ?_, ?_, ?_, ?_⟩
  · rw [get_entry_fst h corpora name (some v), ha]
    show (match alistLookup (getVersions (heapGet h a0)) v with
      | none =>
        Except.error (versionNotFoundMsg v name
          ((getVersions (heapGet h a0)).map Prod.fst))
      | some vi => Except.ok (mergedEntry (heapGet h a0) v vi)) =
      Except.ok (mergedEntry (heapGet h a0) v vi)
    rw [hvi]
  · unfold mergedEntry
    rw [alistLookup_del_ne "latest" "download_url" (by decide),
      alistLookup_del_ne "versions" "download_url" (by decide),
      alistLookup_set_ne "hash" "download_url" (by decide),
      alistLookup_set_self]
  · unfold mergedEntry
    rw [alistLookup_del_ne "latest" "hash" (by decide),
      alistLookup_del_ne "versions" "hash" (by decide),
      alistLookup_set_self]
  · unfold mergedEntry
    rw [alistLookup_del_ne "latest" "versions" (by decide),
      alistLookup_del_self]
  · unfold mergedEntry
    rw [alistLookup_del_self]
  · unfold mergedEntry
    rw [alistLookup_del_ne "latest" "doi" (by decide),
      alistLookup_del_ne "versions" "doi" (by decide),
      alistLookup_set_ne "hash" "doi" (by decide),
      alistLookup_set_ne "download_url" "doi" (by decide),
      alistLookup_set_ne "version" "doi" (by decide)]

theorem get_entry_merges_url_hash_only_witness :
    ∃ d, (get_entry cexHeap cexCorpora "alpha" (some "1")).1 = Except.ok d ∧
      alistLookup d "download_url" = some (RVal.s cexVersionInfo.download_url) ∧
      alistLookup d "hash" = some (RVal.s cexVersionInfo.hash) ∧
      alistLookup d "versions" = none ∧
      alistLookup d "latest" = none ∧
      alistLookup d "doi" = alistLookup (heapGet cexHeap 0) "doi" :=
  get_entry_merges_url_hash_only cexHeap cexCorpora "alpha" "1" 0 (by decide)
    cexVersionInfo (by decide)

/-- C10: `get_entry` never mutates the cached registry: every address that
existed before the call holds the same entry dict afterwards (in particular
the looked-up entry keeps its `versions` and `latest` keys, since only the
fresh copy is modified), and a second identical call on the resulting heap
returns the same result as the first. -/
theorem get_entry_no_cache_mutation (h : Heap) (corpora : Corpora)
    (name : String) (v : Option String) (a : Nat)
    (ha : alistLookup corpora name = some a) (hlt : a < h.length) :
    heapGet (get_entry h corpora name v).2 a = heapGet h a ∧
    (get_entry (get_entry h corpora name v).2 corpora name v).1 =
      (get_entry h corpora name v).1 := by
  have hframe : heapGet (get_entry h corpora name v).2 a = heapGet h a := by
    rw [get_entry_snd h corpora name v, ha]
    show heapGet (match resolveVersion (heapGet h a) v with
      | none => h ++ [heapGet h a]
      | some ver =>
        match alistLookup (getVersions (heapGet h a)) ver with
        | none => h ++ [heapGet h a]
        | some vi => h ++ [mergedEntry (heapGet h a) ver vi]) a = heapGet h a
    cases resolveVersion (heapGet h a) v with
    | none => exact heapGet_append_lt h _ a hlt
    | some ver =>
      show heapGet (match alistLookup (getVersions (heapGet h a)) ver with
        | none => h ++ [heapGet h a]
        | some vi => h ++ [mergedEntry (heapGet h a) ver vi]) a = heapGet h a
      cases alistLookup (getVersions (heapGet h a)) ver with
      | none => exact heapGet_append_lt h _ a hlt
      | some vi => exact heapGet_append_lt h _ a hlt
  refine ⟨hframe, ?_⟩
  rw [get_entry_fst ((get_entry h corpora name v).2) corpora name v,
    get_entry_fst h corpora name v, ha]
  show (match resolveVersion (heapGet (get_entry h corpora name v).2 a) v with
    | none => Except.error "KeyError: latest"
    | some ver =>
      match alistLookup (getVersions (heapGet (get_entry h corpora name v).2 a)) ver with
      | none =>
        Except.error (versionNotFoundMsg ver name
          ((getVersions (heapGet (get_entry h corpora name v).2 a)).map Prod.fst))
      | some vi =>
        Except.ok (mergedEntry (heapGet (get_entry h corpora name v).2 a) ver vi)) =
    (match resolveVersion (heapGet h a) v with
    | none => Except.error "KeyError: latest"
    | some ver =>
      match alistLookup (getVersions (heapGet h a)) ver with
      | none =>
        Except.error (versionNotFoundMsg ver name
          ((getVersions (heapGet h a)).map Prod.fst))
      | some vi => Except.ok (mergedEntry (heapGet h a) ver vi))
  rw [hframe]

theorem get_entry_no_cache_mutation_witness :
    heapGet (get_entry cexHeap cexCorpora "alpha" (some "1")).2 0 =
      heapGet cexHeap 0 ∧
    (get_entry (get_entry cexHeap cexCorpora "alpha" (some "1")).2
        cexCorpora "alpha" (some "1")).1 =
      (get_entry cexHeap cexCorpora "alpha" (some "1")).1 :=
  get_entry_no_cache_mutation cexHeap cexCorpora "alpha" (some "1") 0
    (by decide) (by decide)

/-! ### Table model for the schema validators and the aggregate build -/

/-- A pandas DataFrame reduced to what the schemas inspect: named columns and
rows of optional string cells (`none` is a null / NaN cell). -/
structure DF where
  cols : List String
  rows : List (List (Option String))
deriving DecidableEq

def colIndexAux (c : String) : List String → Nat → Option Nat
  | [], _ => none
  | x :: t, n => if x = c then some n else colIndexAux c t (n + 1)

/-- Position of a column, if present. -/
def colIndex (df : DF) (c : String) : Option Nat := colIndexAux c df.cols 0

/-- The cell of row `r` in column `c` of `df` (`none` when the column is
absent - pandas fills such cells with NaN on concatenation). -/
def cellAt (df : DF) (r : List (Option String)) (c : String) : Option String :=
  match colIndex df c with
  | some i => r.getD i none
  | none => none

def hasCol (df : DF) (c : String) : Bool := decide (c ∈ df.cols)

def colNonNull (df : DF) (c : String) : Bool :=
  df.rows.all (fun r => (cellAt df r c).isSome)

/-- `ReportsSchema.validate`: `author` present and non-null, `report` present
and non-null; additional columns permitted (`strict = False`).  The schema
declares no other check on `report` - in particular no non-emptiness
check. -/
def validateReports (df : DF) : Except String DF :=
  if !hasCol df "author" then Except.error "column author not in dataframe"
  else if !hasCol df "report" then Except.error "column report not in dataframe"
  else if !colNonNull df "author" then
    Except.error "non-nullable series author contains null values"
  else if !colNonNull df "report" then
    Except.error "non-nullable series report contains null values"
  else Except.ok df

/-- `AggregateReportsSchema.validate`: `corpus`, `author` and `report`
present and non-null, and no other column allowed (`strict = True`). -/
def validateAggregate (df : DF) : Except String DF :=
  if !hasCol df "corpus" then Except.error "column corpus not in dataframe"
  else if !hasCol df "author" then Except.error "column author not in dataframe"
  else if !hasCol df "report" then Except.error "column report not in dataframe"
  else if df.cols.any (fun c => !(c == "corpus" || c == "author" || c == "report")) then
    Except.error "column not in schema (strict)"
  else if !colNonNull df "corpus" then
    Except.error "non-nullable series corpus contains null values"
  else if !colNonNull df "author" then
    Except.error "non-nullable series author contains null values"
  else if !colNonNull df "report" then
    Except.error "non-nullable series report contains null values"
  else Except.ok df

/-- `df.insert(0, "corpus_version", corpus_string)` of
`compile_single_corpus`: the tag column goes in at position 0. -/
def insertCorpusVersion (df : DF) (tag : String) : DF :=
  ⟨"corpus_version" :: df.cols, df.rows.map (fun r => some tag :: r)⟩

/-- `compile_single_corpus` of `scripts/build_aggregate.py`: tag a corpus's
reports table with `{corpus_name}-v{version}` in a new first column named
`corpus_version`. -/
def compile_single_corpus (name version : String) (reports : DF) : DF :=
  insertCorpusVersion reports (name ++ "-v" ++ version)

/-- Column union in order of first appearance (`pd.concat` column
alignment). -/
def unionCols (dfs : List DF) : List String :=
  dfs.foldl (fun acc df => acc ++ df.cols.filter (fun c => !(decide (c ∈ acc)))) []

def concatRows (cols : List String) : List DF → List (List (Option String))
  | [] => []
  | df :: rest => df.rows.map (fun r => cols.map (cellAt df r)) ++ concatRows cols rest

/-- `pd.concat(..., ignore_index=True)`: one row per input row, each row
reindexed to the union of the columns, missing cells null (NaN). -/
def concatDFs (dfs : List DF) : DF :=
  ⟨unionCols dfs, concatRows (unionCols dfs) dfs⟩

/-- `build_aggregate` of `scripts/build_aggregate.py`: tag every corpus's
reports table and concatenate them all into the single release table.  No
schema validation is applied before the table is written out. -/
def build_aggregate (inputs : List (String × String × DF)) : DF :=
  concatDFs (inputs.map (fun x => compile_single_corpus x.1 x.2.1 x.2.2))

/-- Reports table of the first corpus of the aggregate counterexample. -/
def aggCorpusA : DF := ⟨["author", "report"], [[some "A1", some "Dream 1"]]⟩

/-- Reports table of the second corpus of the aggregate counterexample: it
carries an extra report-level column. -/
def aggCorpusB : DF :=
  ⟨["author", "report", "emotion"], [[some "B1", some "Dream 2", some "joy"]]⟩

/-- C7 (code bug): the aggregate table built by `build_aggregate` does not
have the three columns `corpus`/`author`/`report` that
`AggregateReportsSchema` (strict) declares for the release artifact: its tag
column is named `corpus_version`, extra report-level columns are carried
through, there is no `corpus` column, and the built table fails the
repository's own aggregate schema (which `build_aggregate` never applies). -/
theorem build_aggregate_columns_cex :
    (build_aggregate [("alpha", "1", aggCorpusA), ("beta", "2", aggCorpusB)]).cols =
      ["corpus_version", "author", "report", "emotion"] ∧
    hasCol (build_aggregate [("alpha", "1", aggCorpusA), ("beta", "2", aggCorpusB)])
      "corpus" = false ∧
    validateAggregate (build_aggregate [("alpha", "1", aggCorpusA), ("beta", "2", aggCorpusB)]) =
      Except.error "column corpus not in dataframe" :=
  ⟨by decide, by decide, rfl⟩

/-- The table of the C8 counterexample: a well-formed reports table whose
single report cell is the empty string. -/
def emptyReportDF : DF := ⟨["author", "report"], [[some "A1", some ""]]⟩

/-- C8, counterexample: a table whose `report` value is the empty string
passes `ReportsSchema` validation, so the claim that the schema rejects
empty-string reports independently of the normalizer is false. -/
theorem validateReports_empty_string_passes_cex :
    validateReports emptyReportDF = Except.ok emptyReportDF ∧
    cellAt emptyReportDF [some "A1", some ""] "report" = some "" :=
  ⟨rfl, by decide⟩

/-- C8, amended: the Reports schema checks exactly that `author` and
`report` are present and non-null, permitting additional columns; it imposes
no non-emptiness condition on `report`, so an empty-string report passes
schema validation - the emptiness guarantee comes only from the
normalizer's own batch check. -/
theorem validateReports_spec (df : DF) :
    validateReports df = Except.ok df ↔
      (hasCol df "author" = true ∧ hasCol df "report" = true ∧
       colNonNull df "author" = true ∧ colNonNull df "report" = true) := by
  cases h1 : hasCol df "author" <;> cases h2 : hasCol df "report" <;>
    cases h3 : colNonNull df "author" <;> cases h4 : colNonNull df "report" <;>
    simp [validateReports, h1, h2, h3, h4]

theorem validateReports_spec_witness :
    validateReports ⟨["author", "report"], [[some "A1", some "Dream"]]⟩ =
      Except.ok ⟨["author", "report"], [[some "A1", some "Dream"]]⟩ :=
  (validateReports_spec ⟨["author", "report"], [[some "A1", some "Dream"]]⟩).mpr
    ⟨by decide, by decide, by decide, by decide⟩

/-! ### The authors view (`Corpus.authors`) -/

/-- A row of the authors projection `df[["author"] + author_columns]`: the
author cell and the author-level metadata cells. -/
structure ARow where
  author : Option String
  meta : List (Option String)
deriving DecidableEq

def dropDupAux {α : Type} [DecidableEq α] (seen : List α) : List α → List α
  | [] => []
  | x :: xs => if x ∈ seen then dropDupAux seen xs else x :: dropDupAux (x :: seen) xs

/-- pandas `drop_duplicates()`: keep the first occurrence of each distinct
full row. -/
def dropDuplicates {α : Type} [DecidableEq α] (l : List α) : List α := dropDupAux [] l

def allDistinct {α : Type} [DecidableEq α] : List α → Bool
  | [] => true
  | x :: xs => !(decide (x ∈ xs)) && allDistinct xs

/-- `AuthorsSchema.validate` on the projected rows: `author` non-null and
unique across rows; additional (metadata) columns permitted. -/
def validateAuthorsRows (rows : List ARow) : Except String (List ARow) :=
  if rows.any (fun r => r.author.isNone) then
    Except.error "non-nullable series author contains null values"
  else if !allDistinct (rows.map ARow.author) then
    Except.error "series author contains duplicate values"
  else Except.ok rows

/-- The `Corpus.authors` view: project the raw table onto the author column
plus the author-level metadata columns (an `ARow` per raw row), deduplicate
by full-row equality, reset the index, and validate against the Authors
schema. -/
def authorsView (raw : List ARow) : Except String (List ARow) :=
  validateAuthorsRows (dropDuplicates raw)

theorem mem_dropDupAux {α : Type} [DecidableEq α] (x : α) :
    ∀ (seen l : List α), x ∈ dropDupAux seen l ↔ (x ∈ l ∧ x ∉ seen)
  | seen, [] => by simp [dropDupAux]
  | seen, y :: ys => by
    by_cases hy : y ∈ seen
    · rw [dropDupAux, if_pos hy, mem_dropDupAux x seen ys]
      constructor
      · rintro ⟨h1, h2⟩
        exact ⟨List.mem_cons_of_mem y h1, h2⟩
      · rintro ⟨h1, h2⟩
        rcases List.mem_cons.mp h1 with h | h
        · subst h; exact absurd hy h2
        · exact ⟨h, h2⟩
    · rw [dropDupAux, if_neg hy]
      constructor
      · intro h
        rcases List.mem_cons.mp h with h | h
        · subst h; exact ⟨List.mem_cons_self _ _, hy⟩
        · have := (mem_dropDupAux x (y :: seen) ys).mp h
          refine ⟨List.mem_cons_of_mem y this.1, fun hs => this.2 (List.mem_cons_of_mem y hs)⟩
      · rintro ⟨h1, h2⟩
        rcases List.mem_cons.mp h1 with h | h
        · subst h; exact List.mem_cons_self _ _
        · by_cases hxy : x = y
          · subst hxy; exact List.mem_cons_self _ _
          · exact List.mem_cons_of_mem _ ((mem_dropDupAux x (y :: seen) ys).mpr
              ⟨h, fun hs => (List.mem_cons.mp hs).elim hxy h2⟩)

theorem mem_dropDuplicates {α : Type} [DecidableEq α] (x : α) (l : List α) :
    x ∈ dropDuplicates l ↔ x ∈ l := by
  rw [dropDuplicates, mem_dropDupAux]
  simp

theorem allDistinct_iff_nodup {α : Type} [DecidableEq α] :
    ∀ l : List α, allDistinct l = true ↔ l.Nodup
  | [] => by simp [allDistinct]
  | x :: xs => by
    rw [allDistinct, List.nodup_cons, Bool.and_eq_true, ← allDistinct_iff_nodup xs]
    simp

/-- C9: whenever the authors view is returned without error, no two of its
rows share an `author` value; and whenever two raw rows share an author value
but differ in some metadata field, full-row deduplication keeps both, the
uniqueness validation fails, and the view returns an error instead of a
table with a duplicated author key. -/
theorem authorsView_author_unique (raw : List ARow) :
    (∀ out, authorsView raw = Except.ok out → (out.map ARow.author).Nodup) ∧
    (∀ r1 r2, r1 ∈ raw → r2 ∈ raw → r1 ≠ r2 → r1.author = r2.author →
      ∃ e, authorsView raw = Except.error e) := by
  constructor
  · intro out hout
    unfold authorsView validateAuthorsRows at hout
    by_cases h1 : (dropDuplicates raw).any (fun r => r.author.isNone)
    · rw [if_pos h1] at hout; cases hout
    · rw [if_neg h1] at hout
      cases h2 : allDistinct ((dropDuplicates raw).map ARow.author) with
      | false => rw [h2] at hout; cases hout
      | true =>
        rw [h2] at hout
        simp only [Bool.not_true, Bool.false_eq_true, if_false] at hout
        have h3 : dropDuplicates raw = out := Except.ok.inj hout
        rw [← h3]
        exact (allDistinct_iff_nodup _).mp h2
  · intro r1 r2 h1 h2 hne hauth
    unfold authorsView validateAuthorsRows
    by_cases hnull : (dropDuplicates raw).any (fun r => r.author.isNone)
    · rw [if_pos hnull]
      exact ⟨_, rfl⟩
    · rw [if_neg hnull]
      have hd1 : r1 ∈ dropDuplicates raw := (mem_dropDuplicates _ _).mpr h1
      have hd2 : r2 ∈ dropDuplicates raw := (mem_dropDuplicates _ _).mpr h2
      have hnn : ¬ ((dropDuplicates raw).map ARow.author).Nodup := fun hn =>
        hne (List.inj_on_of_nodup_map hn hd1 hd2 hauth)
      have hfalse : allDistinct ((dropDuplicates raw).map ARow.author) = false := by
        cases hh : allDistinct ((dropDuplicates raw).map ARow.author)
        · rfl
        · exact absurd ((allDistinct_iff_nodup _).mp hh) hnn
      rw [hfalse]
      exact ⟨"series author contains duplicate values", rfl⟩

theorem authorsView_author_unique_witness :
    ∃ e, authorsView [⟨some "A1", [some "25"]⟩, ⟨some "A1", [some "30"]⟩] =
      Except.error e :=
  (authorsView_author_unique _).2 ⟨some "A1", [some "25"]⟩ ⟨some "A1", [some "30"]⟩
    (by decide) (by decide) (by decide) (by decide)

example : normalizeRow "  Dream 3  ".toList = "Dream 3".toList := by decide
example : normalizeRow "“Quoted whole string”".toList =
    "Quoted whole string".toList := by decide
example : normalizeRow "Mixed “left” and ‘right’ quotes".toList =
    "Mixed \"left\" and \x27right\x27 quotes".toList := by decide
example : normalizeRow "a\n\nb\tc".toList = "a b c".toList := by decide
example : stripOuterQuotes "\x27".toList = "\x27".toList := by decide

end Krank
